import Mathlib

/-!
Shallow embedding of `src/Week1/verify_voluspa.py`.

Strings are modelled as `List Char` (Python `str` is a sequence of Unicode
code points).  `splitlines`, `strip` and the whitespace / line-break
character classes reproduce the behaviour of Python's `str.splitlines` and
`str.strip`; `Counter` equality is embedded as per-key count comparison.
-/

namespace Voluspa

/-- Code points at which Python's `str.splitlines` breaks a line
(`\n`, `\v`, `\f`, `\r`, FS, GS, RS, NEL, LINE SEPARATOR, PARAGRAPH
SEPARATOR; `"\r\n"` is treated as a single break by `splitlines`). -/
def pyBreak (c : Char) : Bool :=
  decide (c.toNat ∈ [0x0A, 0x0B, 0x0C, 0x0D, 0x1C, 0x1D, 0x1E, 0x85, 0x2028, 0x2029])

/-- Code points Python's `str.strip()` removes, i.e. those with
`str.isspace() = True`. -/
def pySpace (c : Char) : Bool :=
  decide (c.toNat ∈ [0x09, 0x0A, 0x0B, 0x0C, 0x0D, 0x1C, 0x1D, 0x1E, 0x1F, 0x20,
    0x85, 0xA0, 0x1680, 0x2000, 0x2001, 0x2002, 0x2003, 0x2004, 0x2005, 0x2006,
    0x2007, 0x2008, 0x2009, 0x200A, 0x2028, 0x2029, 0x202F, 0x205F, 0x3000])

/-- Python's `str.splitlines()` (without `keepends`): split at every line
boundary, treating `"\r\n"` as one boundary, and do not produce a final
empty line for a trailing boundary. -/
def splitlines : List Char → List (List Char)
  | [] => []
  | '\r' :: '\n' :: rest => [] :: splitlines rest
  | c :: rest =>
    if pyBreak c then
      [] :: splitlines rest
    else
      match splitlines rest with
      | [] => [[c]]
      | l :: ls => (c :: l) :: ls

/-- Python's `str.strip()`: remove leading and trailing whitespace. -/
def strip (l : List Char) : List Char :=
  ((l.dropWhile pySpace).reverse.dropWhile pySpace).reverse

/-- The module-level constant `DWARVES` of `verify_voluspa.py`. -/
def DWARVES : List (List Char) :=
  ["Þorinn".data, "Balin".data, "Bífurr".data, "Báfurr".data, "Bömburr".data,
   "Dóri".data, "Dvalinn".data, "Fíli".data, "Glóinn".data, "Kíli".data,
   "Nóri".data, "Þrainn".data, "Óri".data, "Gandalfr".data]

/-- The module-level constant `PREFIX = "Hi! My name is "`. -/
def PREFIX : List Char := "Hi! My name is ".data

/-- The line comprehension of `verify`:
`[ln.strip() for ln in output.splitlines() if ln.strip() != ""]`. -/
def parsedLines (output : List Char) : List (List Char) :=
  ((splitlines output).map strip).filter (fun ln => !ln.isEmpty)

/-- Equality of `collections.Counter(xs)` and `collections.Counter(ys)`:
the two key-to-count mappings agree on every key of either. -/
def counterEq (xs ys : List (List Char)) : Bool :=
  xs.all (fun x => xs.count x == ys.count x) && ys.all (fun y => xs.count y == ys.count y)

/-- The function `verify` of `verify_voluspa.py`. -/
def verify (output : List Char) : Bool :=
  let lines := parsedLines output
  if lines.length ≠ DWARVES.length then
    false
  else if lines.all (fun ln => PREFIX.isPrefixOf ln) then
    counterEq (lines.map (fun ln => ln.drop ( PREFIX.length))) DWARVES
  else
    false

/-- Outcome of the `subprocess.run` invocation in `main`: either the call
raises (failure to launch, timeout, any execution fault), or the process
completes with an exit code and captured standard output. -/
inductive RunResult where
  | failed : RunResult
  | finished : Int → List Char → RunResult

/-- The function `main` of `verify_voluspa.py`, as a function from the
invocation outcome to the single line it prints. -/
def main : RunResult → List Char
  | .failed => "No".data
  | .finished rc out =>
    if rc ≠ 0 then "No".data
    else if verify out then "Yes".data else "No".data

/-- Join a list of lines, terminating each with a newline. -/
def joinNL (lines : List (List Char)) : List Char :=
  (lines.map (fun l => l ++ ['\n'])).flatten

/-- The text consisting of one newline-terminated announcement line per
name, in order. -/
def mkInput (names : List (List Char)) : List Char :=
  joinNL (names.map (fun n => PREFIX ++ n))

/-- A label that survives the verification pipeline unchanged: non-empty,
free of line-break characters, and not ending in whitespace (so that
stripping the announcement line leaves it intact). -/
def cleanName (n : List Char) : Bool :=
  !n.isEmpty && n.all (fun c => !pyBreak c) && !pySpace (n.getLastD ' ')

/-- The specification's characterization of a successful verification:
the non-blank trimmed lines number exactly 14, each starts with the
prefix, and the labels after the prefix have the same per-label counts as
the reference list. -/
def SpecVerify (output : List Char) : Prop :=
  (parsedLines output).length = 14 ∧
  (∀ ln ∈ parsedLines output, PREFIX <+: ln) ∧
  ∀ lab, ((parsedLines output).map (fun ln => ln.drop ( PREFIX.length))).count lab
    = DWARVES.count lab

/-- Insertion of extra blank lines: `InsertBlanks ls₁ ls₂` holds when
`ls₂` is `ls₁` with additional lines interspersed (before, between, or
after), each inserted line consisting only of whitespace characters that
are not line breaks. -/
inductive InsertBlanks : List (List Char) → List (List Char) → Prop where
  | nil : InsertBlanks [] []
  | keep (l : List Char) {t₁ t₂ : List (List Char)} :
      InsertBlanks t₁ t₂ → InsertBlanks (l :: t₁) (l :: t₂)
  | blank (b : List Char) {t₁ t₂ : List (List Char)} :
      b.all (fun c => pySpace c && !pyBreak c) = true →
      InsertBlanks t₁ t₂ → InsertBlanks t₁ (b :: t₂)

/-! Lemmas about `splitlines`. -/

lemma splitlines_cons_newline (rest : List Char) :
    splitlines ('\n' :: rest) = [] :: splitlines rest := rfl

lemma splitlines_cons_of_not_break {c : Char} (rest : List Char) (h : pyBreak c = false) :
    splitlines (c :: rest) =
      match splitlines rest with
      | [] => [[c]]
      | l :: ls => (c :: l) :: ls := by
  have hc : c ≠ '\r' := by
    intro e
    subst e
    simp [pyBreak] at h
  rw [splitlines.eq_def]
  split
  case _ heq => exact absurd heq (by simp)
  case _ heq =>
    exfalso
    apply hc
    injection heq with h1 h2
  case _ c' rest' h1 heq =>
    injection heq with e1 e2
    subst e1
    subst e2
    rw [if_neg (by simp [h])]

lemma splitlines_cons_break {c : Char} {rest : List Char} (h : pyBreak c = true)
    (hne : ∀ r : List Char, c = '\r' → rest = '\n' :: r → False) :
    splitlines (c :: rest) = [] :: splitlines rest := by
  rw [splitlines.eq_def]
  split
  case _ heq => exact absurd heq (by simp)
  case _ rest' heq =>
    injection heq with e1 e2
    exact absurd trivial (fun _ => hne rest' e1 e2)
  case _ c' rest' h1 heq =>
    injection heq with e1 e2
    subst e1
    subst e2
    rw [if_pos h]

lemma splitlines_line {l : List Char} (rest : List Char)
    (h : ∀ c ∈ l, pyBreak c = false) :
    splitlines (l ++ '\n' :: rest) = l :: splitlines rest := by
  induction l with
  | nil => simp [splitlines_cons_newline]
  | cons c t ih =>
    have hc : pyBreak c = false := h c (List.mem_cons_self ..)
    have ih' := ih (fun x hx => h x (List.mem_cons_of_mem _ hx))
    rw [List.cons_append, splitlines_cons_of_not_break _ hc, ih']

lemma splitlines_joinNL {ls : List (List Char)}
    (h : ∀ l ∈ ls, ∀ c ∈ l, pyBreak c = false) :
    splitlines (joinNL ls) = ls := by
  induction ls with
  | nil => rfl
  | cons l t ih =>
    have h1 : ∀ c ∈ l, pyBreak c = false := h l (List.mem_cons_self ..)
    have ih' := ih (fun x hx => h x (List.mem_cons_of_mem _ hx))
    simp only [joinNL, List.map_cons, List.flatten_cons, List.append_assoc,
      List.singleton_append]
    rw [splitlines_line _ h1]
    rw [show (joinNL t) = (t.map (fun l => l ++ ['\n'])).flatten from rfl] at ih'
    rw [ih']

lemma splitlines_breakFree (s : List Char) :
    ∀ l ∈ splitlines s, ∀ c ∈ l, pyBreak c = false := by
  induction s using splitlines.induct with
  | case1 => simp [splitlines]
  | case2 rest ih =>
    intro l hl
    rw [show splitlines ('\r' :: '\n' :: rest) = [] :: splitlines rest from rfl,
      List.mem_cons] at hl
    rcases hl with rfl | h
    · intro c hc
      cases hc
    · exact ih l h
  | case3 c rest hne hb ih =>
    intro l hl
    rw [splitlines_cons_break hb hne, List.mem_cons] at hl
    rcases hl with rfl | h
    · intro x hx
      cases hx
    · exact ih l h
  | case4 c rest hne hb h0 ih =>
    intro l hl
    have hb' : pyBreak c = false := by
      simpa using hb
    rw [splitlines_cons_of_not_break rest hb', h0] at hl
    simp only [List.mem_singleton] at hl
    subst hl
    intro x hx
    rcases List.mem_singleton.mp hx with rfl
    exact hb'
  | case5 c rest hne hb l0 ls0 hsp ih =>
    intro l hl
    have hb' : pyBreak c = false := by
      simpa using hb
    rw [splitlines_cons_of_not_break rest hb', hsp] at hl
    rcases List.mem_cons.mp hl with rfl | h
    · intro x hx
      rcases List.mem_cons.mp hx with rfl | hx'
      · exact hb'
      · exact ih l0 (hsp ▸ List.mem_cons_self ..) x hx'
    · exact ih l (hsp ▸ List.mem_cons_of_mem _ h)

/-! Lemmas about `strip`. -/

lemma dropWhile_head_false {p : Char → Bool} {l t : List Char} {a : Char}
    (h : l.dropWhile p = a :: t) : p a = false := by
  induction l with
  | nil => cases h
  | cons c r ih =>
    rw [List.dropWhile_cons] at h
    by_cases hc : p c = true
    · rw [if_pos hc] at h
      exact ih h
    · rw [if_neg hc] at h
      injection h with e1 _
      subst e1
      simpa using hc

lemma dropWhile_append_all {p : Char → Bool} {w : List Char} (l : List Char)
    (h : ∀ c ∈ w, p c = true) : (w ++ l).dropWhile p = l.dropWhile p := by
  induction w with
  | nil => rfl
  | cons c r ih =>
    rw [List.cons_append, List.dropWhile_cons, if_pos (h c (List.mem_cons_self ..))]
    exact ih (fun x hx => h x (List.mem_cons_of_mem _ hx))

lemma dropWhile_append_ne_nil {p : Char → Bool} {l : List Char} (w : List Char)
    (h : l.dropWhile p ≠ []) : (l ++ w).dropWhile p = l.dropWhile p ++ w := by
  induction l with
  | nil => exact absurd rfl h
  | cons c r ih =>
    rw [List.cons_append, List.dropWhile_cons, List.dropWhile_cons]
    by_cases hc : p c = true
    · rw [if_pos hc, if_pos hc]
      apply ih
      rw [List.dropWhile_cons, if_pos hc] at h
      exact h
    · rw [if_neg hc, if_neg hc, List.cons_append]

lemma strip_eq_nil_of_space {b : List Char} (h : ∀ c ∈ b, pySpace c = true) :
    strip b = [] := by
  unfold strip
  rw [show b = b ++ [] from (List.append_nil b).symm, dropWhile_append_all _ h]
  rfl

lemma strip_append_space {l w : List Char} (h : ∀ c ∈ w, pySpace c = true) :
    strip (l ++ w) = strip l := by
  by_cases h0 : l.dropWhile pySpace = []
  · have hl : ∀ c ∈ l, pySpace c = true := List.dropWhile_eq_nil_iff.mp h0
    have hall : ∀ c ∈ l ++ w, pySpace c = true := by
      intro c hc
      rcases List.mem_append.mp hc with h1 | h1
      · exact hl c h1
      · exact h c h1
    rw [strip_eq_nil_of_space hall, strip_eq_nil_of_space hl]
  · unfold strip
    rw [dropWhile_append_ne_nil w h0, List.reverse_append,
      dropWhile_append_all _ (fun c hc => h c (List.mem_reverse.mp hc))]

lemma strip_prepend_space {l w : List Char} (h : ∀ c ∈ w, pySpace c = true) :
    strip (w ++ l) = strip l := by
  unfold strip
  rw [dropWhile_append_all _ h]

/-! Further lemmas about `strip`, `Counter` equality, and constants. -/

lemma strip_eq_self {l : List Char} (h0 : l ≠ [])
    (h1 : pySpace (l.headD ' ') = false) (h2 : pySpace (l.getLastD ' ') = false) :
    strip l = l := by
  obtain ⟨a, t, rfl⟩ : ∃ a t, l = a :: t := by
    cases l with
    | nil => exact absurd rfl h0
    | cons a t => exact ⟨a, t, rfl⟩
  unfold strip
  rw [List.dropWhile_cons, if_neg (by simpa using h1)]
  obtain ⟨b, u, hbu⟩ : ∃ b u, (a :: t).reverse = b :: u := by
    cases hrev : (a :: t).reverse with
    | nil => exact absurd (List.reverse_eq_nil_iff.mp hrev) (List.cons_ne_nil a t)
    | cons b u => exact ⟨b, u, rfl⟩
  have hb : b = (a :: t).getLastD ' ' := by
    have := List.head?_reverse (a :: t)
    rw [hbu] at this
    rw [List.getLastD_eq_getLast?, ← this]
    rfl
  rw [hbu, List.dropWhile_cons, if_neg (by rw [hb]; simpa using h2), ← hbu,
    List.reverse_reverse]

lemma strip_getLast_not_space {raw : List Char} (h : strip raw ≠ []) :
    pySpace ((strip raw).getLastD ' ') = false := by
  obtain ⟨a, u, hau⟩ : ∃ a u, (raw.dropWhile pySpace).reverse.dropWhile pySpace = a :: u := by
    cases hz : (raw.dropWhile pySpace).reverse.dropWhile pySpace with
    | nil => exact absurd (by unfold strip; rw [hz]; rfl) h
    | cons a u => exact ⟨a, u, rfl⟩
  have ha : pySpace a = false := dropWhile_head_false hau
  unfold strip
  rw [hau, List.reverse_cons, List.getLastD_concat]
  exact ha

lemma strip_line {n : List Char} (h : cleanName n = true) :
    strip ( PREFIX ++ n) = PREFIX ++ n := by
  rw [cleanName, Bool.and_eq_true, Bool.and_eq_true] at h
  obtain ⟨⟨hne, _⟩, hlast⟩ := h
  have hn : n ≠ [] := by simpa using hne
  apply strip_eq_self
  · simp [PREFIX]
  · rw [show ( PREFIX ++ n).headD ' ' = 'H' from rfl]
    decide
  · rw [List.getLastD_eq_getLast?, List.getLast?_append]
    cases hg : n.getLast? with
    | none => exact absurd (List.getLast?_eq_none_iff.mp hg) hn
    | some b =>
      rw [Option.or]
      show pySpace b = false
      have : n.getLastD ' ' = b := by
        rw [List.getLastD_eq_getLast?, hg]
        rfl
      rw [← this]
      simpa using hlast


lemma counterEq_iff {xs ys : List (List Char)} :
    counterEq xs ys = true ↔ ∀ z, xs.count z = ys.count z := by
  constructor
  · intro h z
    rw [counterEq, Bool.and_eq_true, List.all_eq_true, List.all_eq_true] at h
    by_cases hz1 : z ∈ xs
    · exact beq_iff_eq.mp (h.1 z hz1)
    · by_cases hz2 : z ∈ ys
      · exact beq_iff_eq.mp (h.2 z hz2)
      · rw [List.count_eq_zero.mpr hz1, List.count_eq_zero.mpr hz2]
  · intro h
    rw [counterEq, Bool.and_eq_true, List.all_eq_true, List.all_eq_true]
    exact ⟨fun x _ => beq_iff_eq.mpr (h x), fun y _ => beq_iff_eq.mpr (h y)⟩

lemma count_instance_eq {α : Type} (i1 i2 : BEq α) (h1 : @LawfulBEq α i1)
    (h2 : @LawfulBEq α i2) (a : α) (l : List α) :
    @List.count α i1 a l = @List.count α i2 a l := by
  induction l with
  | nil => rfl
  | cons b t ih =>
    rw [@List.count_cons α i1, @List.count_cons α i2, ih]
    by_cases hba : b = a
    · rw [if_pos (@beq_iff_eq α i1 h1 b a |>.mpr hba),
        if_pos (@beq_iff_eq α i2 h2 b a |>.mpr hba)]
    · rw [if_neg (fun hc => hba (@beq_iff_eq α i1 h1 b a |>.mp hc)),
        if_neg (fun hc => hba (@beq_iff_eq α i2 h2 b a |>.mp hc))]

lemma counterEq_iff_perm {xs ys : List (List Char)} :
    counterEq xs ys = true ↔ xs.Perm ys := by
  rw [counterEq_iff, List.perm_iff_count]
  have hc : ∀ (a : List Char) (l : List (List Char)),
      @List.count _ List.instBEq a l = @List.count _ instBEqOfDecidableEq a l :=
    count_instance_eq _ _ inferInstance inferInstance
  constructor
  · intro h a
    rw [← hc, ← hc]
    exact h a
  · intro h z
    rw [hc, hc]
    exact h z

lemma dwarves_length : DWARVES.length = 14 := rfl

lemma dwarves_nodup : DWARVES.Nodup := by decide

lemma dwarves_clean : ∀ n ∈ DWARVES, cleanName n = true := by decide

lemma prefix_breakFree : ∀ c ∈ PREFIX, pyBreak c = false := by decide

lemma verify_congr {a b : List Char} (h : parsedLines a = parsedLines b) :
    verify a = verify b := by
  unfold verify
  rw [h]


/-! Lemmas about the `verify` pipeline. -/

lemma verify_false_of_length {output : List Char}
    (h : (parsedLines output).length ≠ 14) : verify output = false := by
  unfold verify
  rw [if_pos (by rw [show DWARVES.length = 14 from rfl]; exact h)]

lemma verify_false_of_bad_line {output ln : List Char} (hmem : ln ∈ parsedLines output)
    (hbad : ( PREFIX.isPrefixOf ln) = false) : verify output = false := by
  unfold verify
  by_cases hlen : (parsedLines output).length ≠ DWARVES.length
  · rw [if_pos hlen]
  · rw [if_neg hlen, if_neg ?_]
    intro hall
    have := List.all_eq_true.mp hall ln hmem
    rw [hbad] at this
    cases this

lemma mem_parsedLines_strip {output ln : List Char} (hmem : ln ∈ parsedLines output) :
    (∃ raw, ln = strip raw) ∧ ln ≠ [] := by
  unfold parsedLines at hmem
  rw [List.mem_filter] at hmem
  obtain ⟨hm, hne⟩ := hmem
  obtain ⟨raw, _, hraw⟩ := List.mem_map.mp hm
  exact ⟨⟨raw, hraw.symm⟩, by simpa using hne⟩

lemma verify_names {output : List Char} {names : List (List Char)}
    (h : parsedLines output = names.map (fun n => PREFIX ++ n)) :
    (verify output = true ↔ names.Perm DWARVES) := by
  unfold verify
  rw [h]
  by_cases hlen : names.length = 14
  · rw [if_neg (by simp [hlen, show DWARVES.length = 14 from rfl])]
    rw [if_pos ?allpre]
    case allpre =>
      rw [List.all_eq_true]
      intro ln hln
      obtain ⟨n, _, rfl⟩ := List.mem_map.mp hln
      exact List.isPrefixOf_iff_prefix.mpr (List.prefix_append _ _)
    rw [List.map_map]
    rw [show (fun ln => ln.drop ( PREFIX.length)) ∘ (fun n => PREFIX ++ n) = fun n => n from ?drop]
    case drop =>
      funext n
      exact List.drop_left _ _
    rw [List.map_id']
    exact counterEq_iff_perm
  · rw [if_pos (by simp [hlen, show DWARVES.length = 14 from rfl])]
    constructor
    · intro hfalse
      cases hfalse
    · intro hperm
      exact absurd (by simpa using hperm.length_eq) hlen


lemma cleanName_parts {n : List Char} (h : cleanName n = true) :
    n ≠ [] ∧ (∀ c ∈ n, pyBreak c = false) ∧ pySpace (n.getLastD ' ') = false := by
  rw [cleanName, Bool.and_eq_true, Bool.and_eq_true] at h
  obtain ⟨⟨h1, h2⟩, h3⟩ := h
  refine ⟨by simpa using h1, ?_, by simpa using h3⟩
  intro c hc
  have := List.all_eq_true.mp h2 c hc
  simpa using this

lemma line_breakFree {n : List Char} (h : ∀ c ∈ n, pyBreak c = false) :
    ∀ c ∈ PREFIX ++ n, pyBreak c = false := by
  intro c hc
  rcases List.mem_append.mp hc with h1 | h1
  · exact prefix_breakFree c h1
  · exact h c h1

lemma parsedLines_mkInput {names : List (List Char)}
    (h : ∀ n ∈ names, cleanName n = true) :
    parsedLines (mkInput names) = names.map (fun n => PREFIX ++ n) := by
  unfold parsedLines mkInput
  rw [splitlines_joinNL (fun l hl => ?bf)]
  case bf =>
    obtain ⟨n, hn, rfl⟩ := List.mem_map.mp hl
    exact line_breakFree (cleanName_parts (h n hn)).2.1
  rw [List.map_map]
  rw [List.map_congr_left (fun n hn => ?st)]
  case st =>
    show strip ( PREFIX ++ n) = PREFIX ++ n
    exact strip_line (h n hn)
  rw [List.filter_eq_self.mpr (fun ln hln => ?ne)]
  case ne =>
    obtain ⟨n, hn, rfl⟩ := List.mem_map.mp hln
    simp [PREFIX]

lemma verify_mkInput {names : List (List Char)}
    (h : ∀ n ∈ names, cleanName n = true) :
    (verify (mkInput names) = true ↔ names.Perm DWARVES) :=
  verify_names (parsedLines_mkInput h)



lemma parsedLines_joinNL {ls : List (List Char)}
    (h : ∀ l ∈ ls, ∀ c ∈ l, pyBreak c = false) :
    parsedLines (joinNL ls) = (ls.map strip).filter (fun ln => !ln.isEmpty) := by
  unfold parsedLines
  rw [splitlines_joinNL h]

lemma dwarfLines_breakFree :
    ∀ l ∈ DWARVES.map (fun n => PREFIX ++ n), ∀ c ∈ l, pyBreak c = false := by
  intro l hl
  obtain ⟨n, hn, rfl⟩ := List.mem_map.mp hl
  exact line_breakFree (cleanName_parts (dwarves_clean n hn)).2.1

lemma dwarfLines_strip_filter :
    ((DWARVES.map (fun n => PREFIX ++ n)).map strip).filter (fun ln => !ln.isEmpty)
      = DWARVES.map (fun n => PREFIX ++ n) := by
  have h := parsedLines_mkInput dwarves_clean
  rw [show mkInput DWARVES = joinNL (DWARVES.map (fun n => PREFIX ++ n)) from rfl,
    parsedLines_joinNL dwarfLines_breakFree] at h
  exact h

lemma insertBlanks_breakFree {ls₁ ls₂ : List (List Char)} (h : InsertBlanks ls₁ ls₂)
    (h1 : ∀ l ∈ ls₁, ∀ c ∈ l, pyBreak c = false) :
    ∀ l ∈ ls₂, ∀ c ∈ l, pyBreak c = false := by
  induction h with
  | nil => exact h1
  | keep l hins ih =>
    intro x hx
    rcases List.mem_cons.mp hx with rfl | hx'
    · exact h1 x (List.mem_cons_self ..)
    · exact ih (fun y hy => h1 y (List.mem_cons_of_mem _ hy)) x hx'
  | blank b hb hins ih =>
    intro x hx
    rcases List.mem_cons.mp hx with rfl | hx'
    · intro c hc
      have hx2 := (Bool.and_eq_true _ _ |>.mp (List.all_eq_true.mp hb c hc)).2
      simpa using hx2
    · exact ih h1 x hx'

lemma insertBlanks_filter {ls₁ ls₂ : List (List Char)} (h : InsertBlanks ls₁ ls₂) :
    (ls₂.map strip).filter (fun ln => !ln.isEmpty)
      = (ls₁.map strip).filter (fun ln => !ln.isEmpty) := by
  induction h with
  | nil => rfl
  | keep l hins ih =>
    simp only [List.map_cons, List.filter_cons, ih]
  | blank b hb hins ih =>
    have hsp : strip b = [] := strip_eq_nil_of_space (fun c hc =>
      (Bool.and_eq_true _ _ |>.mp (List.all_eq_true.mp hb c hc)).1)
    simp only [List.map_cons, List.filter_cons, hsp]
    rw [if_neg (by decide)]
    exact ih

lemma getLastD_append_of_ne_nil {l t : List Char} (h : t ≠ []) :
    (l ++ t).getLastD ' ' = t.getLastD ' ' := by
  rw [List.getLastD_eq_getLast?, List.getLastD_eq_getLast?, List.getLast?_append]
  cases hg : t.getLast? with
  | none => exact absurd (List.getLast?_eq_none_iff.mp hg) h
  | some b => rfl

lemma verify_true_counts {output : List Char} (h : verify output = true) :
    ∀ z, ((parsedLines output).map (fun ln => ln.drop ( PREFIX.length))).count z
      = DWARVES.count z := by
  unfold verify at h
  by_cases h1 : (parsedLines output).length ≠ DWARVES.length
  · rw [if_pos h1] at h
    cases h
  · rw [if_neg h1] at h
    by_cases h2 : (parsedLines output).all (fun ln => PREFIX.isPrefixOf ln) = true
    · rw [if_pos h2] at h
      exact counterEq_iff.mp h
    · rw [if_neg h2] at h
      cases h



lemma strip_padded {n w₁ w₂ : List Char} (hn : cleanName n = true)
    (hw₁ : ∀ c ∈ w₁, pySpace c = true) (hw₂ : ∀ c ∈ w₂, pySpace c = true) :
    strip (w₁ ++ ( PREFIX ++ n) ++ w₂) = PREFIX ++ n := by
  rw [List.append_assoc, strip_prepend_space hw₁, strip_append_space hw₂, strip_line hn]

lemma parsedLines_padded {names : List (List Char)} {w₁ w₂ : List Char}
    (h : ∀ n ∈ names, cleanName n = true)
    (hw₁ : ∀ c ∈ w₁, pySpace c = true ∧ pyBreak c = false)
    (hw₂ : ∀ c ∈ w₂, pySpace c = true ∧ pyBreak c = false) :
    parsedLines (joinNL (names.map (fun n => w₁ ++ ( PREFIX ++ n) ++ w₂)))
      = names.map (fun n => PREFIX ++ n) := by
  rw [parsedLines_joinNL (fun l hl => ?bf)]
  case bf =>
    obtain ⟨n, hn, rfl⟩ := List.mem_map.mp hl
    intro c hc
    rcases List.mem_append.mp hc with h1 | h1
    · rcases List.mem_append.mp h1 with h2 | h2
      · exact (hw₁ c h2).2
      · exact line_breakFree (cleanName_parts (h n hn)).2.1 c h2
    · exact (hw₂ c h1).2
  rw [List.map_map]
  rw [List.map_congr_left (fun n hn => ?st)]
  case st =>
    show strip (w₁ ++ ( PREFIX ++ n) ++ w₂) = PREFIX ++ n
    exact strip_padded (h n hn) (fun c hc => (hw₁ c hc).1) (fun c hc => (hw₂ c hc).1)
  rw [List.filter_eq_self.mpr (fun ln hln => ?ne)]
  case ne =>
    obtain ⟨n, hn, rfl⟩ := List.mem_map.mp hln
    simp [PREFIX]


/-! Claim theorems. -/

/-- Claim C1: for every input string, `verify` returns true if and only if
the number of non-blank trimmed lines equals the size of the reference
list (14), every such line starts with the prefix string, and the
substrings following the prefix have exactly the same per-label counts as
the 14 reference labels. -/
theorem C1_verify_iff_spec (output : List Char) :
    verify output = true ↔ SpecVerify output := by
  unfold verify SpecVerify
  by_cases hlen : (parsedLines output).length = 14
  · rw [if_neg (by rw [show DWARVES.length = 14 from rfl]; simp [hlen])]
    by_cases hall : (parsedLines output).all (fun ln => PREFIX.isPrefixOf ln) = true
    · rw [if_pos hall, counterEq_iff]
      constructor
      · intro hcnt
        exact ⟨hlen,
          fun ln hln => List.isPrefixOf_iff_prefix.mp (List.all_eq_true.mp hall ln hln),
          hcnt⟩
      · intro hs
        exact hs.2.2
    · rw [if_neg hall]
      constructor
      · intro hf
        cases hf
      · rintro ⟨h14, hpre, hcnt⟩
        exfalso
        apply hall
        rw [List.all_eq_true]
        intro ln hln
        exact List.isPrefixOf_iff_prefix.mpr (hpre ln hln)
  · rw [if_pos (by rw [show DWARVES.length = 14 from rfl]; simpa using hlen)]
    constructor
    · intro hf
      cases hf
    · rintro ⟨h14, _, _⟩
      exact absurd h14 hlen

theorem C1_witness : SpecVerify (mkInput DWARVES) :=
  (C1_verify_iff_spec (mkInput DWARVES)).mp (by decide)

/-- Claim C2: for every permutation of the 14 reference labels, the input
consisting of one correctly prefixed newline-terminated line per label in
that order makes `verify` return true, regardless of the order. -/
theorem C2_perm_true (p : List (List Char)) (hp : p.Perm DWARVES) :
    verify (mkInput p) = true := by
  refine (verify_mkInput ?_).mpr hp
  intro n hn
  exact dwarves_clean n (hp.subset hn)

theorem C2_witness : verify (mkInput DWARVES.reverse) = true :=
  C2_perm_true _ (List.reverse_perm DWARVES)

/-- Claim C3: whenever the number of non-blank trimmed lines differs from
14, `verify` returns false regardless of line contents; in particular it
returns false when a reference label is omitted (13 correct lines) and
when an extra non-blank line is added to the 14 correct lines. -/
theorem C3_count_mismatch :
    (∀ output : List Char, (parsedLines output).length ≠ 14 → verify output = false) ∧
    (∀ d ∈ DWARVES, verify (mkInput (DWARVES.erase d)) = false) ∧
    (∀ ln : List Char, (∀ c ∈ ln, pyBreak c = false) → strip ln ≠ [] →
      verify (joinNL (ln :: DWARVES.map (fun n => PREFIX ++ n))) = false) := by
  refine ⟨fun output h => verify_false_of_length h, ?_, ?_⟩
  · intro d hd
    have hclean : ∀ n ∈ DWARVES.erase d, cleanName n = true :=
      fun n hn => dwarves_clean n (List.erase_subset _ _ hn)
    rw [Bool.eq_false_iff]
    intro htrue
    have hlen := ((verify_mkInput hclean).mp htrue).length_eq
    rw [List.length_erase_of_mem hd, dwarves_length] at hlen
    simp at hlen
  · intro ln hbf hne
    apply verify_false_of_length
    have hb : ∀ l ∈ ln :: DWARVES.map (fun n => PREFIX ++ n), ∀ c ∈ l, pyBreak c = false := by
      intro l hl
      rcases List.mem_cons.mp hl with rfl | h
      · exact hbf
      · exact dwarfLines_breakFree l h
    rw [parsedLines_joinNL hb, List.map_cons, List.filter_cons,
      if_pos (by simpa using hne), dwarfLines_strip_filter]
    simp [dwarves_length]

theorem C3_witness :
    ((parsedLines []).length ≠ 14 ∧ verify [] = false) ∧
    ("Balin".data ∈ DWARVES ∧ verify (mkInput (DWARVES.erase "Balin".data)) = false) :=
  ⟨⟨by decide, C3_count_mismatch.1 [] (by decide)⟩,
   ⟨by decide, C3_count_mismatch.2.1 "Balin".data (by decide)⟩⟩


/-- Claim C4: for distinct reference labels `A` and `B`, any input of 14
correctly prefixed lines in which `A` appears twice and `B` is omitted
(total count still 14) makes `verify` return false: duplicates are caught
by the multiset comparison, not by the line count. -/
theorem C4_duplicate_false (A B : List Char) (hA : A ∈ DWARVES) (hB : B ∈ DWARVES)
    (hAB : A ≠ B) (p : List (List Char)) (hp : p.Perm (A :: DWARVES.erase B)) :
    verify (mkInput p) = false := by
  have hclean : ∀ n ∈ p, cleanName n = true := by
    intro n hn
    rcases List.mem_cons.mp (hp.subset hn) with rfl | h
    · exact dwarves_clean n hA
    · exact dwarves_clean n (List.erase_subset _ _ h)
  rw [Bool.eq_false_iff]
  intro htrue
  have hperm : (A :: DWARVES.erase B).Perm DWARVES :=
    (hp.symm.trans ((verify_mkInput hclean).mp htrue))
  have hnodup : (A :: DWARVES.erase B).Nodup := hperm.symm.nodup dwarves_nodup
  exact (List.nodup_cons.mp hnodup).1 ((List.mem_erase_of_ne hAB).mpr hA)

theorem C4_witness :
    verify (mkInput ("Balin".data :: DWARVES.erase "Dóri".data)) = false :=
  C4_duplicate_false "Balin".data "Dóri".data (by decide) (by decide) (by decide)
    _ (List.Perm.refl _)

/-- Claim C5: any input containing a non-blank trimmed line that does not
start with the prefix string makes `verify` return false. -/
theorem C5_malformed_false (output : List Char)
    (h : ∃ ln ∈ parsedLines output, ¬ ( PREFIX <+: ln)) :
    verify output = false := by
  obtain ⟨ln, hmem, hpre⟩ := h
  refine verify_false_of_bad_line hmem ?_
  rw [Bool.eq_false_iff]
  intro hb
  exact hpre (List.isPrefixOf_iff_prefix.mp hb)

theorem C5_witness : verify "My name is Balin\n".data = false :=
  C5_malformed_false _ ⟨"My name is Balin".data, by decide, by decide⟩

/-- Claim C6: inserting extra blank or whitespace-only lines anywhere
between the lines of an input never changes the result of `verify`: such
lines are filtered out before counting. -/
theorem C6_blank_lines (s : List Char) (ls₂ : List (List Char))
    (h : InsertBlanks (splitlines s) ls₂) :
    verify (joinNL ls₂) = verify s := by
  apply verify_congr
  show parsedLines (joinNL ls₂) = parsedLines s
  rw [parsedLines_joinNL (insertBlanks_breakFree h (splitlines_breakFree s))]
  rw [insertBlanks_filter h]
  rfl

theorem C6_witness : verify (joinNL [[' '], ['a'], []]) = verify ['a'] :=
  C6_blank_lines ['a'] [[' '], ['a'], []]
    (InsertBlanks.blank [' '] (by decide)
      (InsertBlanks.keep ['a'] (InsertBlanks.blank [] (by decide) InsertBlanks.nil)))

/-- Claim C7: the program prints exactly one line, either `Yes` or `No`.
If the invocation raises (failure to launch, timeout) it prints `No`; if
the process exits non-zero it prints `No` for every captured output, i.e.
without consulting `verify`; otherwise it prints `Yes` exactly when
`verify` accepts the captured standard output. -/
theorem C7_main_output :
    (∀ r : RunResult, main r = "Yes".data ∨ main r = "No".data) ∧
    main RunResult.failed = "No".data ∧
    (∀ (rc : Int) (out : List Char), rc ≠ 0 → main (RunResult.finished rc out) = "No".data) ∧
    (∀ out : List Char, main (RunResult.finished 0 out)
      = (if verify out then "Yes".data else "No".data)) := by
  refine ⟨?_, rfl, ?_, ?_⟩
  · intro r
    cases r with
    | failed => exact Or.inr rfl
    | finished rc out =>
      simp only [main]
      by_cases h : rc ≠ 0
      · rw [if_pos h]
        exact Or.inr rfl
      · rw [if_neg h]
        by_cases hv : verify out = true
        · rw [if_pos hv]
          exact Or.inl rfl
        · rw [if_neg hv]
          exact Or.inr rfl
  · intro rc out h
    simp only [main]
    rw [if_pos h]
  · intro out
    simp only [main]
    rw [if_neg (by simp)]

theorem C7_witness : main (RunResult.finished 1 []) = "No".data :=
  C7_main_output.2.2.1 1 [] (by decide)


lemma cleanName_mk {n : List Char} (h0 : n ≠ []) (h1 : ∀ c ∈ n, pyBreak c = false)
    (h2 : pySpace (n.getLastD ' ') = false) : cleanName n = true := by
  rw [cleanName, Bool.and_eq_true, Bool.and_eq_true]
  refine ⟨⟨by simpa using h0, ?_⟩, by simpa using h2⟩
  rw [List.all_eq_true]
  intro c hc
  simpa using h1 c hc

/-- Claim C8 counterexample: the claim asserts that adding trailing
spaces around the label of a correctly prefixed valid line makes `verify`
return false, but on the 14 reference lines with a trailing space added
after the label `Balin`, `verify` returns true: `strip` removes the
trailing space before prefix matching and label extraction. -/
theorem C8_counterexample :
    verify (mkInput ["Þorinn".data, "Balin ".data, "Bífurr".data, "Báfurr".data,
      "Bömburr".data, "Dóri".data, "Dvalinn".data, "Fíli".data, "Glóinn".data,
      "Kíli".data, "Nóri".data, "Þrainn".data, "Óri".data, "Gandalfr".data]) = true := by
  decide

/-- Claim C8 amended: each line is trimmed of all surrounding whitespace
before prefix matching, so whitespace added at either end of a line
(before the prefix or after the label) is stripped and `verify` still
returns true on the 14 reference lines; whereas a space inserted between
the prefix and the label survives trimming, and the extracted label then
carries a leading space and fails the multiset comparison, so `verify`
returns false. -/
theorem C8_trimming_scope :
    (∀ (p : List (List Char)) (w₁ w₂ : List Char), p.Perm DWARVES →
      (∀ c ∈ w₁, pySpace c = true ∧ pyBreak c = false) →
      (∀ c ∈ w₂, pySpace c = true ∧ pyBreak c = false) →
      verify (joinNL (p.map (fun n => w₁ ++ ( PREFIX ++ n) ++ w₂))) = true) ∧
    (∀ A ∈ DWARVES, verify (mkInput ((' ' :: A) :: DWARVES.erase A)) = false) := by
  constructor
  · intro p w₁ w₂ hp hw₁ hw₂
    have hclean : ∀ n ∈ p, cleanName n = true := fun n hn => dwarves_clean n (hp.subset hn)
    exact (verify_names (parsedLines_padded hclean hw₁ hw₂)).mpr hp
  · intro A hA
    have hparts := cleanName_parts (dwarves_clean A hA)
    have hclean : ∀ n ∈ (' ' :: A) :: DWARVES.erase A, cleanName n = true := by
      intro n hn
      rcases List.mem_cons.mp hn with rfl | h
      · refine cleanName_mk (List.cons_ne_nil _ _) ?_ ?_
        · intro c hc
          rcases List.mem_cons.mp hc with rfl | hc'
          · decide
          · exact hparts.2.1 c hc'
        · rw [List.getLastD_cons]
          exact hparts.2.2
      · exact dwarves_clean n (List.erase_subset _ _ h)
    rw [Bool.eq_false_iff]
    intro htrue
    have hmem : (' ' :: A) ∈ DWARVES :=
      ((verify_mkInput hclean).mp htrue).subset (List.mem_cons_self ..)
    have hnot : ∀ X ∈ DWARVES, (' ' :: X) ∉ DWARVES := by decide
    exact hnot A hA hmem

theorem C8_witness :
    verify (mkInput ((' ' :: "Balin".data) :: DWARVES.erase "Balin".data)) = false :=
  C8_trimming_scope.2 "Balin".data (by decide)

/-- Claim C9: the reference list is a fixed constant of exactly 14
pairwise distinct labels, so a successful verification requires each
reference label to appear exactly once among the extracted labels, and
`verify` is deterministic: equal inputs always give equal results. -/
theorem C9_constants :
    DWARVES.length = 14 ∧ DWARVES.Nodup ∧
    (∀ output : List Char, verify output = true →
      ∀ d ∈ DWARVES,
        ((parsedLines output).map (fun ln => ln.drop ( PREFIX.length))).count d = 1) ∧
    (∀ s₁ s₂ : List Char, s₁ = s₂ → verify s₁ = verify s₂) := by
  refine ⟨rfl, dwarves_nodup, ?_, ?_⟩
  · intro output h d hd
    rw [verify_true_counts h d]
    have hone : ∀ x ∈ DWARVES, DWARVES.count x = 1 := by decide
    exact hone d hd
  · intro s₁ s₂ h
    rw [h]

theorem C9_witness :
    ((parsedLines (mkInput DWARVES)).map
      (fun ln => ln.drop ( PREFIX.length))).count "Balin".data = 1 :=
  C9_constants.2.2.1 (mkInput DWARVES) (by decide) "Balin".data (by decide)

/-- Claim C10: every label extracted by `verify` is non-empty and has no
trailing whitespace, because lines are stripped before matching the
prefix (which ends in a space); consequently the stripped form of a line
consisting of the prefix alone, with or without trailing whitespace,
never passes the prefix check, and an input containing such a line among
its non-blank lines makes `verify` return false. -/
theorem C10_label_shape :
    (∀ output ln : List Char, ln ∈ parsedLines output → PREFIX <+: ln →
      ln.drop ( PREFIX.length) ≠ [] ∧
        pySpace ((ln.drop ( PREFIX.length)).getLastD ' ') = false) ∧
    (∀ w : List Char, (∀ c ∈ w, pySpace c = true) →
      ( PREFIX.isPrefixOf (strip ( PREFIX ++ w))) = false) ∧
    (∀ (output w : List Char), (∀ c ∈ w, pySpace c = true) →
      ( PREFIX ++ w) ∈ splitlines output → verify output = false) := by
  refine ⟨?_, ?_, ?_⟩
  · intro output ln hmem hpre
    obtain ⟨⟨raw, hraw⟩, hne⟩ := mem_parsedLines_strip hmem
    have hlast : pySpace (ln.getLastD ' ') = false := by
      rw [hraw]
      exact strip_getLast_not_space (by rw [← hraw]; exact hne)
    obtain ⟨t, ht⟩ := hpre
    have hdrop : ln.drop ( PREFIX.length) = t := by
      rw [← ht, List.drop_left]
    rw [hdrop]
    have htne : t ≠ [] := by
      intro h0
      subst h0
      rw [← ht, List.append_nil] at hlast
      revert hlast
      decide
    refine ⟨htne, ?_⟩
    rw [← ht, getLastD_append_of_ne_nil htne] at hlast
    exact hlast
  · intro w hw
    rw [strip_append_space hw]
    decide
  · intro output w hw hmem
    have hs : strip ( PREFIX ++ w) = "Hi! My name is".data := by
      rw [strip_append_space hw]
      decide
    have hbl : ("Hi! My name is".data) ∈ parsedLines output := by
      unfold parsedLines
      rw [List.mem_filter]
      constructor
      · rw [← hs]
        exact List.mem_map_of_mem strip hmem
      · decide
    exact verify_false_of_bad_line hbl (by decide)

theorem C10_witness : verify "Hi! My name is \n".data = false :=
  C10_label_shape.2.2 _ [] (by decide) (by decide)


end Voluspa
